import Mathlib

/-!
Verification of the RMIT policy scraper (`scraper.py`).

Strings are modelled as `List Char`; Python's Unicode-aware text helpers
(`str.lower`, the `\w` character class) are modelled over the ASCII range,
which covers every character the verified properties exercise.  Machine
integers do not occur (Python integers are unbounded), so `Nat` is exact.
-/

/-- The character set matched by Python's regex class `\s` (and stripped by
`str.strip()`): ASCII whitespace, the information separators, NEL, and the
Unicode space characters.  The zero-width space U+200B is *not* whitespace. -/
def isPySpace (c : Char) : Bool :=
  c = ' ' || c = '\t' || c = '\n' || c = '\r' || c = '\x0b' || c = '\x0c' ||
  c = '\x1c' || c = '\x1d' || c = '\x1e' || c = '\x1f' || c = '\x85' ||
  c = '\u00a0' || c = '\u1680' || ('\u2000' ≤ c && c ≤ '\u200a') ||
  c = '\u2028' || c = '\u2029' || c = '\u202f' || c = '\u205f' || c = '\u3000'

/-- `re.sub` of one-or-more whitespace by one space: collapse each maximal run
of whitespace into a single ASCII space.  The flag records whether the
previous character was part of a whitespace run already replaced. -/
def collapseWSAux : Bool → List Char → List Char
  | _, [] => []
  | prev, c :: cs =>
    if isPySpace c then
      if prev then collapseWSAux true cs else ' ' :: collapseWSAux true cs
    else c :: collapseWSAux false cs

def collapseWS (cs : List Char) : List Char := collapseWSAux false cs

/-- Python `str.strip()`: drop leading and trailing whitespace. -/
def pyStrip (cs : List Char) : List Char :=
  ((cs.dropWhile isPySpace).reverse.dropWhile isPySpace).reverse

/-- `clean_text` from `scraper.py`: collapse whitespace runs to one space,
strip, replace NBSP (U+00A0) by a space, delete zero-width spaces (U+200B) —
in that order. -/
def clean_text (cs : List Char) : List Char :=
  if cs.isEmpty then []
  else
    (((pyStrip (collapseWS cs)).map
        (fun c => if c = '\u00a0' then ' ' else c)).filter
      (fun c => c ≠ '\u200b'))

/-- Does `cs` start with `pat`? -/
def beginsWith : List Char → List Char → Bool
  | [], _ => true
  | _ :: _, [] => false
  | p :: ps, c :: cs => p = c && beginsWith ps cs

/-- Python's substring containment, `pat in cs`. -/
def containsSub (pat : List Char) : List Char → Bool
  | [] => pat.isEmpty
  | c :: cs => beginsWith pat (c :: cs) || containsSub pat cs

/-- Python `str.lower()` modelled on the ASCII range. -/
def lowerList (cs : List Char) : List Char := cs.map Char.toLower


/-!  ## HTML node model

A parsed document is a tree of element tags (with their class attribute,
the only attribute the scraper reads for traversal) and text nodes, in
document order — the shape BeautifulSoup exposes to `scraper.py`.  -/

inductive HNode where
  | elem (tag : String) (classes : List String) (children : List HNode)
  | textNode (s : List Char)

instance : Inhabited HNode := ⟨HNode.textNode []⟩

def HNode.tagOf : HNode → Option String
  | .elem t _ _ => some t
  | .textNode _ => none

def HNode.childrenL : HNode → List HNode
  | .elem _ _ cs => cs
  | .textNode _ => []

def HNode.classesOf : HNode → List String
  | .elem _ cl _ => cl
  | .textNode _ => []

mutual
/-- BeautifulSoup `get_text()`: concatenation of all descendant text, in
document order. -/
def HNode.getText : HNode → List Char
  | .textNode s => s
  | .elem _ _ cs => getTextL cs
def getTextL : List HNode → List Char
  | [] => []
  | n :: ns => HNode.getText n ++ getTextL ns
end

mutual
/-- `find(pred)` over the descendants of a forest: first match in pre-order
(document order).  Text nodes never match a tag filter. -/
def findFirst1 (p : HNode → Bool) : HNode → Option HNode
  | .textNode _ => none
  | .elem t cl cs =>
    if p (.elem t cl cs) then some (.elem t cl cs) else findFirstL p cs
def findFirstL (p : HNode → Bool) : List HNode → Option HNode
  | [] => none
  | n :: ns =>
    match findFirst1 p n with
    | some r => some r
    | none => findFirstL p ns
end

mutual
/-- `find_all` for a tag name over the descendants of a forest, in document
order (an element precedes its own matching descendants). -/
def findAll1 (p : HNode → Bool) : HNode → List HNode
  | .textNode _ => []
  | .elem t cl cs =>
    (if p (.elem t cl cs) then [HNode.elem t cl cs] else []) ++ findAllL p cs
def findAllL (p : HNode → Bool) : List HNode → List HNode
  | [] => []
  | n :: ns => findAll1 p n ++ findAllL p ns
end

def isTagged (t : String) (n : HNode) : Bool := n.tagOf = some t

/-- `find_all(name, recursive=False)`: only the direct children with the tag. -/
def directTagged (t : String) (cs : List HNode) : List HNode :=
  cs.filter (isTagged t)

/-!  ## Clause extractor (`extract_clauses_from_list`)  -/

structure Clause where
  clause_number : String
  text : List Char
  subclauses : List (List Char)
  deriving DecidableEq, Inhabited

/-- Subclauses of one retained list item: the first nested `ol`/`ul` found
among the item's descendants, if any, contributes every descendant `li` whose
cleaned text has at least 20 characters. -/
def subclausesOf (li : HNode) : List (List Char) :=
  match findFirstL (fun n => isTagged "ol" n || isTagged "ul" n) li.childrenL with
  | some nl =>
      (findAllL (isTagged "li") nl.childrenL).filterMap (fun subLi =>
        let subText := clean_text subLi.getText
        if 20 ≤ subText.length then some subText else none)
  | none => []

/-- The `for i, li in enumerate(...)` loop body of `extract_clauses_from_list`:
`i` counts every direct `li` considered, skipped or not, and the emitted
clause number is `str(i + 1)`. -/
def extractClausesAux : Nat → List HNode → List Clause
  | _, [] => []
  | i, li :: rest =>
    let text := clean_text li.getText
    if text.length < 20 then extractClausesAux (i + 1) rest
    else
      { clause_number := Nat.repr (i + 1), text := text,
        subclauses := subclausesOf li } :: extractClausesAux (i + 1) rest

/-- `extract_clauses_from_list` from `scraper.py`. -/
def extract_clauses_from_list (ol : HNode) : List Clause :=
  extractClausesAux 0 (directTagged "li" ol.childrenL)

/-!  ## Section walk of `scrape_policy_document`  -/

structure Section where
  section_title : List Char
  clauses : List Clause
  deriving DecidableEq, Inhabited

/- Named `PolicyPart` because Mathlib already declares `Part`; it models the
spec data-model record called Part. -/
structure PolicyPart where
  part_title : String
  sections : List Section
  deriving DecidableEq, Inhabited

def isHeading (n : HNode) : Bool := isTagged "h2" n || isTagged "h3" n

mutual
/-- All `h2`/`h3` descendants of a node, each paired with its list of
following siblings — the pairs `find_all(['h2','h3'])` plus
`heading.find_next_siblings()` walk over, in document order. -/
def headingPairs1 : HNode → List (HNode × List HNode)
  | .textNode _ => []
  | .elem _ _ cs => headingPairsL cs
def headingPairsL : List HNode → List (HNode × List HNode)
  | [] => []
  | n :: ns =>
    (if isHeading n then [(n, ns)] else []) ++ headingPairs1 n ++ headingPairsL ns
end

/-- The sibling walk below one section heading: stop at the next `h2`/`h3`;
an `ol` sibling appends its extracted clauses; a `p` sibling with at least 20
cleaned characters appends one clause numbered `str(len(clauses) + 1)`;
anything else (including text between tags) is passed over. -/
def collectClauses : List HNode → List Clause → List Clause
  | [], acc => acc
  | HNode.textNode _ :: ns, acc => collectClauses ns acc
  | HNode.elem t cl cs :: ns, acc =>
    if t = "h2" || t = "h3" then acc
    else if t = "ol" then
      collectClauses ns (acc ++ extract_clauses_from_list (HNode.elem t cl cs))
    else if t = "p" then
      let text := clean_text (HNode.getText (HNode.elem t cl cs))
      if 20 ≤ text.length then
        collectClauses ns
          (acc ++ [{ clause_number := Nat.repr (acc.length + 1), text := text,
                     subclauses := [] }])
      else collectClauses ns acc
    else collectClauses ns acc

/-- One section per retained heading of the content area: headings whose
cleaned title is shorter than 3 characters are skipped, and a section is kept
only when its collected clause list is non-empty. -/
def scrapeSections (contentArea : HNode) : List Section :=
  (headingPairs1 contentArea).filterMap (fun pr =>
    let title := clean_text pr.1.getText
    if title.length < 3 then none
    else
      let clauses := collectClauses pr.2 []
      if clauses.isEmpty then none
      else some { section_title := title, clauses := clauses })

/-- Content-area selection: first `div` with class `content`, else the first
`main` element, else the first `body` element (`soup.body`). -/
def contentRootOf (soup : HNode) : Option HNode :=
  match findFirstL (fun n => isTagged "div" n && n.classesOf.contains "content")
      soup.childrenL with
  | some n => some n
  | none =>
    match findFirstL (isTagged "main") soup.childrenL with
    | some n => some n
    | none => findFirstL (isTagged "body") soup.childrenL

/-- The `structure` field `scrape_policy_document` builds: always exactly one
part, holding the sections of the content area (none when no content area
exists). -/
def scrape_structure (soup : HNode) : List PolicyPart :=
  [{ part_title := "Main Content",
     sections :=
       match contentRootOf soup with
       | some ca => scrapeSections ca
       | none => [] }]

/-!  ## Date extraction of `scrape_policy_document`

Model of the regex one-or-two digits, a separator `-` or `/`, one or two
digits, a separator `-` or `/`, four digits — under `re.search` semantics:
leftmost starting position wins, and each counted quantifier greedily tries
the longer length first.  The two separator character classes are matched
independently of each other, exactly as in the source pattern. -/

def isSep (c : Char) : Bool := c = '-' || c = '/'

/-- Tail of the pattern: a separator followed by exactly four digits. -/
def matchSep4 : List Char → Option (List Char)
  | s :: a :: b :: c :: d :: _ =>
    if isSep s && a.isDigit && b.isDigit && c.isDigit && d.isDigit
    then some [s, a, b, c, d] else none
  | _ => none

/-- Month-and-year tail: one or two digits (greedy), then `matchSep4`. -/
def matchMonth : List Char → Option (List Char)
  | [] => none
  | a :: rest =>
    if a.isDigit then
      match rest with
      | b :: rest2 =>
        if b.isDigit then
          match matchSep4 rest2 with
          | some m => some (a :: b :: m)
          | none => (matchSep4 rest).map (a :: ·)
        else (matchSep4 rest).map (a :: ·)
      | [] => none
    else none

/-- After the day: a separator, then `matchMonth`. -/
def matchAfterDay : List Char → Option (List Char)
  | s :: rest => if isSep s then (matchMonth rest).map (s :: ·) else none
  | [] => none

/-- The whole pattern anchored at the start of the fragment: one or two
digits (greedy), then `matchAfterDay`. -/
def matchFrom : List Char → Option (List Char)
  | [] => none
  | a :: rest =>
    if a.isDigit then
      match rest with
      | b :: rest2 =>
        if b.isDigit then
          match matchAfterDay rest2 with
          | some m => some (a :: b :: m)
          | none => (matchAfterDay rest).map (a :: ·)
        else (matchAfterDay rest).map (a :: ·)
      | [] => none
    else none

/-- `re.search(date_pattern, text)`: try each start position left to right;
`match.group()` is the returned character list. -/
def reSearch : List Char → Option (List Char)
  | [] => none
  | c :: cs =>
    match matchFrom (c :: cs) with
    | some m => some m
    | none => reSearch cs

structure Dates where
  approval : List Char
  review : List Char
  deriving DecidableEq, Inhabited

def apKeyword (frag : List Char) : Bool :=
  containsSub "approval date".data (lowerList frag) ||
  containsSub "approved".data (lowerList frag)

def rvKeyword (frag : List Char) : Bool :=
  containsSub "review date".data (lowerList frag) ||
  containsSub "reviewed".data (lowerList frag)

/-- One iteration of the date scan loop over `soup.stripped_strings`: an
approval keyword plus a regex match overwrites `approval_date`, and then,
independently, a review keyword plus a regex match overwrites `review_date`.
There is no break: every fragment is processed. -/
def stepDates (st : Dates) (frag : List Char) : Dates :=
  let st1 :=
    if apKeyword frag then
      match reSearch frag with
      | some m => { st with approval := m }
      | none => st
    else st
  if rvKeyword frag then
    match reSearch frag with
    | some m => { st1 with review := m }
    | none => st1
  else st1

/-- The whole date scan: both dates start empty and the loop folds over the
document's text fragments in document order. -/
def extractDates (frags : List (List Char)) : Dates :=
  frags.foldl stepDates { approval := [], review := [] }

/-- A fragment both holds a date keyword and matches the date regex — the
condition under which the scan overwrites `approval_date`. -/
def apSets (frag : List Char) : Bool := apKeyword frag && (reSearch frag).isSome

def rvSets (frag : List Char) : Bool := rvKeyword frag && (reSearch frag).isSome

/-!  ## Filename derivation of `save_policy_json`  -/

/-- Python's regex class `\w` (word character), modelled on the ASCII range:
letters, digits, and the underscore. -/
def isPyWord (c : Char) : Bool := c.isAlphanum || c = '_'

/-- First substitution: delete every character that is not a word character,
whitespace, or a hyphen. -/
def stripSpecial (cs : List Char) : List Char :=
  cs.filter (fun c => isPyWord c || isPySpace c || c = '-')

/-- Second substitution: replace each maximal run of hyphens and whitespace by
a single underscore. -/
def collapseDashAux : Bool → List Char → List Char
  | _, [] => []
  | prev, c :: cs =>
    if isPySpace c || c = '-' then
      if prev then collapseDashAux true cs else '_' :: collapseDashAux true cs
    else c :: collapseDashAux false cs

/-- The filename `save_policy_json` derives from a title: strip the special
characters, collapse hyphen/space runs to underscores, truncate the base to
80 characters, append the extension. -/
def policy_filename (title : List Char) : List Char :=
  (collapseDashAux false (stripSpecial title)).take 80 ++ ".json".data

/-!  ## Pipeline driver (`scrape_all_policies`)

The per-link work — fetch, `scrape_policy_document`, the non-empty-sections
check, `save_policy_json` — is summarised by an outcome oracle: `true` when
the iteration reaches the success branch, `false` when it lands in the
skipped branch or the exception handler.  Exactly one branch runs per link. -/

structure Summary where
  success : Nat
  failed : Nat
  total : Nat
  deriving DecidableEq, Inhabited

/-- `if max_policies: policy_links = policy_links[:max_policies]`.  Python
truthiness: `None` and `0` both leave the list untruncated. -/
def processed_links (links : List String) (maxPolicies : Option Nat) :
    List String :=
  match maxPolicies with
  | none => links
  | some n => if n = 0 then links else links.take n

/-- `scrape_all_policies`: an empty discovery aborts with zeros; otherwise the
loop visits each processed link once, incrementing exactly one counter, and
the reported total is the length of the processed list. -/
def scrape_all_policies (links : List String) (maxPolicies : Option Nat)
    (outcome : String → Bool) : Summary :=
  if links.isEmpty then { success := 0, failed := 0, total := 0 }
  else
    let ls := processed_links links maxPolicies
    let counts := ls.foldl
      (fun pr link => if outcome link then (pr.1 + 1, pr.2) else (pr.1, pr.2 + 1))
      (0, 0)
    { success := counts.1, failed := counts.2, total := ls.length }

/-!  ## Concrete inputs used by the witnesses and counterexamples  -/

def mkLi (s : String) : HNode := HNode.elem "li" [] [HNode.textNode s.data]

def mkP (s : String) : HNode := HNode.elem "p" [] [HNode.textNode s.data]

/-- An ordered list with five direct items where only the second is shorter
than 20 cleaned characters. -/
def exOl5 : HNode :=
  HNode.elem "ol" []
    [mkLi "Members must comply with this policy.",
     mkLi "short",
     mkLi "Approvals are recorded by the registrar.",
     mkLi "Reviews happen annually in semester one.",
     mkLi "Exceptions require written permission."]

/-- A document whose body holds one section heading followed by `exOl5`. -/
def exSoup : HNode :=
  HNode.elem "[document]" []
    [HNode.elem "html" []
      [HNode.elem "body" []
        [HNode.elem "h2" [] [HNode.textNode "Rules".data], exOl5]]]



/-- The language of strings the date regex can return: one or two digits, a
separator, one or two digits, a separator, four digits — the two separators
chosen independently. -/
def DateShape (m : List Char) : Prop :=
  ∃ d1 s1 d2 s2 y4, m = d1 ++ s1 :: (d2 ++ s2 :: y4) ∧
    1 ≤ d1.length ∧ d1.length ≤ 2 ∧ d1.all Char.isDigit = true ∧
    isSep s1 = true ∧
    1 ≤ d2.length ∧ d2.length ≤ 2 ∧ d2.all Char.isDigit = true ∧
    isSep s2 = true ∧ y4.length = 4 ∧ y4.all Char.isDigit = true

/-- Adjacent characters are not both ASCII spaces. -/
def spaceApart (a b : Char) : Prop := ¬(a = ' ' ∧ b = ' ')

/-!  ## Helper lemmas about the text normalizer  -/

theorem mem_collapseWSAux {c : Char} :
    ∀ (l : List Char) (b : Bool), c ∈ collapseWSAux b l →
      c = ' ' ∨ (c ∈ l ∧ isPySpace c = false) := by
  intro l
  induction l with
  | nil => intro b h; simp [collapseWSAux] at h
  | cons a as ih =>
    intro b h
    by_cases ha : isPySpace a = true
    · have step : c ∈ collapseWSAux true as →
          c = ' ' ∨ (c ∈ a :: as ∧ isPySpace c = false) := by
        intro hx
        rcases ih true hx with h1 | ⟨h2, h3⟩
        · exact Or.inl h1
        · exact Or.inr ⟨List.mem_cons_of_mem _ h2, h3⟩
      cases b with
      | true =>
        have et : collapseWSAux true (a :: as) = collapseWSAux true as := by
          simp [collapseWSAux, ha]
        exact step (et ▸ h)
      | false =>
        have ef : collapseWSAux false (a :: as) = ' ' :: collapseWSAux true as := by
          simp [collapseWSAux, ha]
        rw [ef, List.mem_cons] at h
        cases h with
        | inl h1 => exact Or.inl h1
        | inr h2 => exact step h2
    · rw [Bool.not_eq_true] at ha
      have eb : collapseWSAux b (a :: as) = a :: collapseWSAux false as := by
        cases b <;> simp [collapseWSAux, ha]
      rw [eb, List.mem_cons] at h
      cases h with
      | inl h1 => exact Or.inr ⟨by rw [h1]; exact List.mem_cons_self _ _, h1 ▸ ha⟩
      | inr h2 =>
        rcases ih false h2 with h1 | ⟨h3, h4⟩
        · exact Or.inl h1
        · exact Or.inr ⟨List.mem_cons_of_mem _ h3, h4⟩

theorem chain_collapseWSAux :
    ∀ l : List Char,
      List.Chain' spaceApart (collapseWSAux true l) ∧
      List.Chain' spaceApart (collapseWSAux false l) ∧
      (∀ c ∈ (collapseWSAux true l).head?, c ≠ ' ') := by
  intro l
  induction l with
  | nil =>
    refine ⟨List.chain'_nil, List.chain'_nil, ?_⟩
    intro c hc
    simp [collapseWSAux] at hc
  | cons a as ih =>
    obtain ⟨iht, ihf, ihh⟩ := ih
    by_cases ha : isPySpace a = true
    · have et : collapseWSAux true (a :: as) = collapseWSAux true as := by
        simp [collapseWSAux, ha]
      have ef : collapseWSAux false (a :: as) = ' ' :: collapseWSAux true as := by
        simp [collapseWSAux, ha]
      refine ⟨by rw [et]; exact iht, ?_, by rw [et]; exact ihh⟩
      rw [ef, List.chain'_cons']
      refine ⟨?_, iht⟩
      intro y hy
      intro hcon
      exact ihh y hy hcon.2
    · rw [Bool.not_eq_true] at ha
      have ane : a ≠ ' ' := by
        intro hEq; rw [hEq] at ha; simp [isPySpace] at ha
      have et : collapseWSAux true (a :: as) = a :: collapseWSAux false as := by
        simp [collapseWSAux, ha]
      have ef : collapseWSAux false (a :: as) = a :: collapseWSAux false as := by
        simp [collapseWSAux, ha]
      have hch : List.Chain' spaceApart (a :: collapseWSAux false as) := by
        rw [List.chain'_cons']
        exact ⟨fun y _ hcon => ane hcon.1, ihf⟩
      refine ⟨by rw [et]; exact hch, by rw [ef]; exact hch, ?_⟩
      rw [et]
      intro c hc
      simp at hc
      exact hc ▸ ane

theorem pyStrip_subset (l : List Char) : pyStrip l ⊆ l := by
  intro x hx
  unfold pyStrip at hx
  rw [List.mem_reverse] at hx
  have h1 := (List.dropWhile_suffix isPySpace).subset hx
  rw [List.mem_reverse] at h1
  exact (List.dropWhile_suffix isPySpace).subset h1

theorem chain_pyStrip {l : List Char} (h : List.Chain' spaceApart l) :
    List.Chain' spaceApart (pyStrip l) := by
  have hsymm : ∀ a b, spaceApart a b → flip spaceApart a b := by
    intro a b hab hcon
    exact hab ⟨hcon.2, hcon.1⟩
  unfold pyStrip
  apply List.chain'_reverse.mpr
  apply List.Chain'.imp hsymm
  apply List.Chain'.suffix _ (List.dropWhile_suffix isPySpace)
  apply List.chain'_reverse.mpr
  apply List.Chain'.imp hsymm
  exact List.Chain'.suffix h (List.dropWhile_suffix isPySpace)

theorem containsSub_two_spaces_eq_false :
    ∀ l : List Char, List.Chain' spaceApart l →
      containsSub [' ', ' '] l = false := by
  intro l
  induction l with
  | nil => intro; rfl
  | cons c cs ih =>
    intro h
    rw [List.chain'_cons'] at h
    show (beginsWith [' ', ' '] (c :: cs) || containsSub [' ', ' '] cs) = false
    rw [ih h.2, Bool.or_false]
    cases cs with
    | nil => simp [beginsWith]
    | cons d ds =>
      have hcd : ¬(c = ' ' ∧ d = ' ') := h.1 d (by simp)
      simp only [beginsWith, Bool.and_eq_false_iff, decide_eq_false_iff_not]
      by_cases hc : c = ' '
      · refine Or.inr (Or.inl ?_)
        intro hd
        exact hcd ⟨hc, hd.symm⟩
      · exact Or.inl fun hEq => hc hEq.symm

/-- C3, counterexample: the Text Normalizer can output two consecutive ASCII
spaces.  Deleting the zero-width space happens only after whitespace runs were
collapsed, so a zero-width space flanked by spaces leaves a double space. -/
theorem c3_normalizer_counterexample :
    clean_text ("a ​ b".data) = "a  b".data ∧
    containsSub [' ', ' '] (clean_text ("a ​ b".data)) = true := by
  constructor <;> decide

/-- C3 (amended): the Text Normalizer's output never contains a non-breaking
space or a zero-width space; and for every input that contains no zero-width
space, the output has no run of two or more consecutive ASCII spaces.  (When
the input does contain a zero-width space between whitespace, a double space
can survive, as the counterexample shows.) -/
theorem c3_normalizer_amended (cs : List Char) :
    ' ' ∉ clean_text cs ∧ '​' ∉ clean_text cs ∧
    ('​' ∉ cs → containsSub [' ', ' '] (clean_text cs) = false) := by
  by_cases hcs : cs.isEmpty
  · have hnil : clean_text cs = [] := by simp [clean_text, hcs]
    rw [hnil]
    exact ⟨by simp, by simp, fun _ => rfl⟩
  · have hct : clean_text cs =
        ((pyStrip (collapseWS cs)).map
          (fun c => if c = ' ' then ' ' else c)).filter
          (fun c => c ≠ '​') := by
      simp [clean_text, hcs]
    have hnbspStrip : ' ' ∉ pyStrip (collapseWS cs) := by
      intro hmem
      have := mem_collapseWSAux (c := ' ') cs false (pyStrip_subset _ hmem)
      rcases this with h1 | ⟨_, h3⟩
      · exact absurd h1 (by decide)
      · exact absurd h3 (by decide)
    refine ⟨?_, ?_, ?_⟩
    · rw [hct]
      intro hmem
      rw [List.mem_filter] at hmem
      rcases List.mem_map.mp hmem.1 with ⟨a, _, hfa⟩
      by_cases hA : a = ' '
      · rw [if_pos hA] at hfa
        exact absurd hfa (by decide)
      · rw [if_neg hA] at hfa
        exact hA hfa
    · rw [hct]
      intro hmem
      rw [List.mem_filter] at hmem
      simp at hmem
    · intro hz
      have hzwspStrip : '​' ∉ pyStrip (collapseWS cs) := by
        intro hmem
        have := mem_collapseWSAux (c := '​') cs false (pyStrip_subset _ hmem)
        rcases this with h1 | ⟨h2, _⟩
        · exact absurd h1 (by decide)
        · exact hz h2
      have hmapid : (pyStrip (collapseWS cs)).map
          (fun c => if c = ' ' then ' ' else c) = pyStrip (collapseWS cs) := by
        calc (pyStrip (collapseWS cs)).map (fun c => if c = ' ' then ' ' else c)
            = (pyStrip (collapseWS cs)).map id := by
              apply List.map_congr_left
              intro a ha
              have : a ≠ ' ' := fun hEq => hnbspStrip (hEq ▸ ha)
              rw [if_neg this]
              rfl
          _ = pyStrip (collapseWS cs) := List.map_id _
      have hfilterid : (pyStrip (collapseWS cs)).filter (fun c => c ≠ '​')
          = pyStrip (collapseWS cs) := by
        apply List.filter_eq_self.mpr
        intro a ha
        have : a ≠ '​' := fun hEq => hzwspStrip (hEq ▸ ha)
        simp [this]
      rw [hct, hmapid, hfilterid]
      apply containsSub_two_spaces_eq_false
      apply chain_pyStrip
      exact (chain_collapseWSAux cs).2.1

/-- Witness for C3 (amended) at a concrete zero-width-space-free input. -/
theorem c3_normalizer_amended_witness :
    ('​' ∉ ("approval  policy".data)) ∧
    containsSub [' ', ' '] (clean_text ("approval  policy".data)) = false :=
  ⟨by decide, (c3_normalizer_amended ("approval  policy".data)).2.2 (by decide)⟩

/-!  ## Helper lemmas about the clause extractor  -/

theorem extractClausesAux_numbers :
    ∀ (ls : List HNode) (i : Nat),
      (extractClausesAux i ls).map Clause.clause_number =
        ((List.range ls.length).filter
          (fun j => 20 ≤ (clean_text ((ls.getD j default).getText)).length)).map
          (fun j => Nat.repr (i + j + 1)) := by
  intro ls
  induction ls with
  | nil => intro i; rfl
  | cons li rest ih =>
    intro i
    have hrange : List.range (rest.length + 1)
        = 0 :: (List.range rest.length).map Nat.succ :=
      List.range_succ_eq_map rest.length
    have hfilter :
        ((List.range rest.length).map Nat.succ).filter
          (fun j => 20 ≤ (clean_text (((li :: rest).getD j default).getText)).length)
        = ((List.range rest.length).filter
            (fun j => 20 ≤ (clean_text ((rest.getD j default).getText)).length)).map
            Nat.succ := by
      rw [List.filter_map]
      congr 1
    have hmapmap :
        (((List.range rest.length).filter
            (fun j => 20 ≤ (clean_text ((rest.getD j default).getText)).length)).map
            Nat.succ).map (fun j => Nat.repr (i + j + 1))
        = ((List.range rest.length).filter
            (fun j => 20 ≤ (clean_text ((rest.getD j default).getText)).length)).map
            (fun j => Nat.repr (i + 1 + j + 1)) := by
      rw [List.map_map]
      apply List.map_congr_left
      intro j _
      show Nat.repr (i + (j + 1) + 1) = Nat.repr (i + 1 + j + 1)
      congr 1
      omega
    by_cases hshort : (clean_text li.getText).length < 20
    · have el : extractClausesAux i (li :: rest) = extractClausesAux (i + 1) rest := by
        simp [extractClausesAux, hshort]
      have hp0 : ¬ (20 ≤ (clean_text (((li :: rest).getD 0 default).getText)).length) := by
        rw [List.getD_cons_zero]
        omega
      rw [el, ih (i + 1), List.length_cons, hrange]
      rw [List.filter_cons_of_neg (by simpa using hp0)]
      rw [hfilter, hmapmap]
    · have hlong : 20 ≤ (clean_text li.getText).length := by omega
      have el : extractClausesAux i (li :: rest)
          = { clause_number := Nat.repr (i + 1), text := clean_text li.getText,
              subclauses := subclausesOf li } :: extractClausesAux (i + 1) rest := by
        simp [extractClausesAux, hshort]
      have hp0 : 20 ≤ (clean_text (((li :: rest).getD 0 default).getText)).length := by
        rw [List.getD_cons_zero]
        exact hlong
      rw [el, List.map_cons, ih (i + 1), List.length_cons, hrange]
      rw [List.filter_cons_of_pos (by simpa using hp0)]
      rw [List.map_cons, hfilter, hmapmap]

/-- C1: every clause emitted by `extract_clauses_from_list` has
`clause_number` equal to the decimal string of (original direct-item
position) + 1, where the position indexes all direct `li` children
considered — skipped short items included; in particular five direct items
with only item 2 too short yield clause numbers ["1", "3", "4", "5"]. -/
theorem c1_clause_numbering :
    (∀ ol : HNode,
      (extract_clauses_from_list ol).map Clause.clause_number =
        ((List.range (directTagged "li" ol.childrenL).length).filter
          (fun j => 20 ≤ (clean_text
            (((directTagged "li" ol.childrenL).getD j default).getText)).length)).map
          (fun j => Nat.repr (j + 1))) ∧
    (extract_clauses_from_list exOl5).map Clause.clause_number
      = ["1", "3", "4", "5"] := by
  constructor
  · intro ol
    unfold extract_clauses_from_list
    rw [extractClausesAux_numbers]
    apply List.map_congr_left
    intro j _
    show Nat.repr (0 + j + 1) = Nat.repr (j + 1)
    congr 1
    omega
  · decide

/-!  ## Helper lemmas about the section walk  -/

theorem collectClauses_no_ol :
    ∀ (sibs : List HNode) (acc : List Clause),
      (∀ n ∈ sibs, isTagged "ol" n = false) →
      ∃ k, (collectClauses sibs acc).map Clause.clause_number =
        acc.map Clause.clause_number ++
          (List.range' (acc.length + 1) k).map Nat.repr := by
  intro sibs
  induction sibs with
  | nil =>
    intro acc _
    exact ⟨0, by simp [collectClauses]⟩
  | cons n ns ih =>
    intro acc hno
    have hns : ∀ m ∈ ns, isTagged "ol" m = false :=
      fun m hm => hno m (List.mem_cons_of_mem _ hm)
    cases n with
    | textNode s =>
      have e : collectClauses (HNode.textNode s :: ns) acc = collectClauses ns acc := by
        simp [collectClauses]
      rw [e]
      exact ih acc hns
    | elem t cl cs =>
      have hto : ¬ t = "ol" := by
        have := hno (HNode.elem t cl cs) (List.mem_cons_self _ _)
        simpa [isTagged, HNode.tagOf] using this
      by_cases hh : (t = "h2" || t = "h3") = true
      · have e : collectClauses (HNode.elem t cl cs :: ns) acc = acc := by
          simp [collectClauses, hh]
        exact ⟨0, by rw [e]; simp⟩
      · by_cases hp : t = "p"
        · subst hp
          by_cases hlen :
              20 ≤ (clean_text (HNode.getText (HNode.elem "p" cl cs))).length
          · have e : collectClauses (HNode.elem "p" cl cs :: ns) acc =
                collectClauses ns (acc ++
                  [{ clause_number := Nat.repr (acc.length + 1),
                     text := clean_text (HNode.getText (HNode.elem "p" cl cs)),
                     subclauses := [] }]) := by
              simp [collectClauses, hh, hlen]
            rw [e]
            obtain ⟨k, hk⟩ := ih _ hns
            refine ⟨k + 1, ?_⟩
            rw [hk]
            simp [List.range'_succ, List.map_append]
          · have e : collectClauses (HNode.elem "p" cl cs :: ns) acc =
                collectClauses ns acc := by
              simp [collectClauses, hh, hlen]
            rw [e]
            exact ih acc hns
        · have e : collectClauses (HNode.elem t cl cs :: ns) acc =
              collectClauses ns acc := by
            simp [collectClauses, hh, hto, hp]
          rw [e]
          exact ih acc hns

/-- C2, counterexample: clause numbering inside a section need not be
contiguous.  In the example document the single section was built from a
five-item ordered list whose second item is too short, so the clause numbers
are ["1", "3", "4", "5"], not ["1", "2", "3", "4"]. -/
theorem c2_contiguity_counterexample :
    ∃ part ∈ scrape_structure exSoup, ∃ sec ∈ part.sections,
      sec.clauses.map Clause.clause_number ≠
        (List.range sec.clauses.length).map (fun j => Nat.repr (j + 1)) := by
  decide

/-- C2 (amended): contiguous 1-based clause numbering "1", ..., "k" holds for
a section exactly when no ordered list contributes to it — paragraph-derived
clauses are numbered `str(len(clauses) + 1)` as they are appended.  Sections
fed by an ordered list use original item positions instead, which skip
numbers when short items are dropped (see the counterexample). -/
theorem c2_contiguity_amended (sibs : List HNode)
    (h : ∀ n ∈ sibs, isTagged "ol" n = false) :
    (collectClauses sibs []).map Clause.clause_number =
      (List.range (collectClauses sibs []).length).map (fun j => Nat.repr (j + 1)) := by
  obtain ⟨k, hk⟩ := collectClauses_no_ol sibs [] h
  have hlen : (collectClauses sibs []).length = k := by
    have hcong := congrArg List.length hk
    simpa using hcong
  rw [hk, hlen]
  simp only [List.map_nil, List.nil_append, List.length_nil, Nat.zero_add,
    List.range'_eq_map_range, List.map_map]
  apply List.map_congr_left
  intro j _
  show Nat.repr (1 + j) = Nat.repr (j + 1)
  congr 1
  omega

/-- Witness for C2 (amended): two sufficiently long paragraph siblings give
clause numbers ["1", "2"]. -/
theorem c2_contiguity_amended_witness :
    (∀ n ∈ [mkP "The first paragraph clause is long.",
            mkP "The second paragraph clause is long."], isTagged "ol" n = false) ∧
    (collectClauses [mkP "The first paragraph clause is long.",
        mkP "The second paragraph clause is long."] []).map Clause.clause_number =
      (List.range (collectClauses [mkP "The first paragraph clause is long.",
        mkP "The second paragraph clause is long."] []).length).map
        (fun j => Nat.repr (j + 1)) :=
  ⟨by decide, c2_contiguity_amended _ (by decide)⟩

/-- C6: a section with an empty clause sequence never appears in the output —
every section of every part produced by `scrape_structure` has at least one
clause, because `scrape_policy_document` appends a section only when its
collected clause list is non-empty. -/
theorem c6_nonempty_sections (soup : HNode) (part : PolicyPart) (sec : Section)
    (hp : part ∈ scrape_structure soup) (hs : sec ∈ part.sections) :
    sec.clauses ≠ [] := by
  unfold scrape_structure at hp
  rw [List.mem_singleton] at hp
  subst hp
  simp only at hs
  cases hca : contentRootOf soup with
  | none =>
    rw [hca] at hs
    simp at hs
  | some ca =>
    rw [hca] at hs
    unfold scrapeSections at hs
    rw [List.mem_filterMap] at hs
    obtain ⟨pr, _, hpr⟩ := hs
    simp only at hpr
    by_cases ht : (clean_text pr.1.getText).length < 3
    · rw [if_pos ht] at hpr
      exact absurd hpr (by simp)
    · rw [if_neg ht] at hpr
      by_cases he : (collectClauses pr.2 []).isEmpty = true
      · rw [if_pos he] at hpr
        exact absurd hpr (by simp)
      · rw [if_neg he] at hpr
        have hsec := Option.some.inj hpr
        intro hnil
        apply he
        have : sec.clauses = collectClauses pr.2 [] := by rw [← hsec]
        rw [← this, hnil]
        rfl

/-- Witness for C6 at the example document. -/
theorem c6_nonempty_sections_witness :
    ({ part_title := "Main Content",
       sections := [{ section_title := "Rules".data,
                      clauses := extract_clauses_from_list exOl5 }] }
        ∈ scrape_structure exSoup) ∧
    ({ section_title := "Rules".data, clauses := extract_clauses_from_list exOl5 }
        ∈ (PolicyPart.mk "Main Content"
            [{ section_title := "Rules".data,
               clauses := extract_clauses_from_list exOl5 }]).sections) ∧
    (Section.mk "Rules".data (extract_clauses_from_list exOl5)).clauses ≠ [] :=
  ⟨by decide, by decide,
    c6_nonempty_sections exSoup
      (PolicyPart.mk "Main Content"
        [{ section_title := "Rules".data,
           clauses := extract_clauses_from_list exOl5 }])
      (Section.mk "Rules".data (extract_clauses_from_list exOl5))
      (by decide) (by decide)⟩

/-!  ## Helper lemmas about the date scan  -/

theorem stepDates_approval_set (st : Dates) (y m : List Char)
    (hk : apKeyword y = true) (hm : reSearch y = some m) :
    (stepDates st y).approval = m := by
  unfold stepDates
  simp only [hk, hm, if_true]
  by_cases hr : rvKeyword y = true
  · simp [hr, hm]
  · simp [hr]

theorem stepDates_review_set (st : Dates) (y m : List Char)
    (hk : rvKeyword y = true) (hm : reSearch y = some m) :
    (stepDates st y).review = m := by
  unfold stepDates
  simp [hk, hm]

theorem stepDates_approval_preserved (st : Dates) (z : List Char)
    (h : apSets z = false) : (stepDates st z).approval = st.approval := by
  unfold stepDates
  by_cases hk : apKeyword z = true
  · cases hr : reSearch z with
    | none =>
      simp only [hk, hr, if_true]
      by_cases hv : rvKeyword z = true
      · simp [hv, hr]
      · simp [hv]
    | some v =>
      exact absurd h (by simp [apSets, hk, hr])
  · have hk' : apKeyword z = false := by simpa using hk
    simp only [hk', Bool.false_eq_true, if_false]
    by_cases hv : rvKeyword z = true
    · cases hr : reSearch z with
      | none => simp [hv, hr]
      | some v => simp [hv, hr]
    · simp [hv]

theorem stepDates_review_preserved (st : Dates) (z : List Char)
    (h : rvSets z = false) : (stepDates st z).review = st.review := by
  unfold stepDates
  by_cases hv : rvKeyword z = true
  · cases hr : reSearch z with
    | none =>
      simp only [hv, hr]
      by_cases hk : apKeyword z = true
      · simp [hk, hr]
      · simp [hk]
    | some v =>
      exact absurd h (by simp [rvSets, hv, hr])
  · have hv' : rvKeyword z = false := by simpa using hv
    simp only [hv', Bool.false_eq_true, if_false]
    by_cases hk : apKeyword z = true
    · cases hr : reSearch z with
      | none => simp [hk, hr]
      | some v => simp [hk, hr]
    · simp [hk]

theorem foldl_stepDates_approval_const :
    ∀ (zs : List (List Char)) (st : Dates),
      (∀ z ∈ zs, apSets z = false) →
      (zs.foldl stepDates st).approval = st.approval := by
  intro zs
  induction zs with
  | nil => intro st _; rfl
  | cons z zs ih =>
    intro st h
    rw [List.foldl_cons, ih _ (fun w hw => h w (List.mem_cons_of_mem _ hw))]
    exact stepDates_approval_preserved st z (h z (List.mem_cons_self _ _))

theorem foldl_stepDates_review_const :
    ∀ (zs : List (List Char)) (st : Dates),
      (∀ z ∈ zs, rvSets z = false) →
      (zs.foldl stepDates st).review = st.review := by
  intro zs
  induction zs with
  | nil => intro st _; rfl
  | cons z zs ih =>
    intro st h
    rw [List.foldl_cons, ih _ (fun w hw => h w (List.mem_cons_of_mem _ hw))]
    exact stepDates_review_preserved st z (h z (List.mem_cons_self _ _))

/-- C4: the date scan has no early exit, so when several fragments carry an
approval (resp. review) keyword and a regex match, the match of the last such
fragment in document order is the one stored in `approval_date`
(resp. `review_date`). -/
theorem c4_last_match_wins :
    (∀ (xs zs : List (List Char)) (y m : List Char),
      apKeyword y = true → reSearch y = some m →
      (∀ z ∈ zs, apSets z = false) →
      (extractDates (xs ++ y :: zs)).approval = m) ∧
    (∀ (xs zs : List (List Char)) (y m : List Char),
      rvKeyword y = true → reSearch y = some m →
      (∀ z ∈ zs, rvSets z = false) →
      (extractDates (xs ++ y :: zs)).review = m) := by
  constructor
  · intro xs zs y m hk hm hz
    unfold extractDates
    rw [List.foldl_append, List.foldl_cons,
      foldl_stepDates_approval_const zs _ hz]
    exact stepDates_approval_set _ y m hk hm
  · intro xs zs y m hk hm hz
    unfold extractDates
    rw [List.foldl_append, List.foldl_cons,
      foldl_stepDates_review_const zs _ hz]
    exact stepDates_review_set _ y m hk hm

/-- Witness for C4: an early approval fragment is overwritten by a later one,
and a still later keyword-only fragment (no digits) does not overwrite. -/
theorem c4_last_match_wins_witness :
    apKeyword ("Approval Date: 03/04/2021 noted".data) = true ∧
    reSearch ("Approval Date: 03/04/2021 noted".data) = some ("03/04/2021".data) ∧
    (∀ z ∈ ["approved policy with no digits".data], apSets z = false) ∧
    (extractDates ["approved 01/01/1999".data,
        "Approval Date: 03/04/2021 noted".data,
        "approved policy with no digits".data]).approval = "03/04/2021".data ∧
    rvKeyword ("Reviewed 05-06-2022".data) = true ∧
    (extractDates ["reviewed 01-01-1998".data,
        "Reviewed 05-06-2022".data]).review = "05-06-2022".data :=
  ⟨by decide, by decide, by decide,
    c4_last_match_wins.1 ["approved 01/01/1999".data]
      ["approved policy with no digits".data]
      ("Approval Date: 03/04/2021 noted".data) ("03/04/2021".data)
      (by decide) (by decide) (by decide),
    by decide,
    c4_last_match_wins.2 ["reviewed 01-01-1998".data] []
      ("Reviewed 05-06-2022".data) ("05-06-2022".data)
      (by decide) (by decide) (by decide)⟩

/-!  ## Helper lemmas about the date regex  -/

theorem matchSep4_shape (cs m : List Char) (h : matchSep4 cs = some m) :
    ∃ s y4, m = s :: y4 ∧ isSep s = true ∧ y4.length = 4 ∧
      y4.all Char.isDigit = true := by
  rcases cs with _ | ⟨s, _ | ⟨a, _ | ⟨b, _ | ⟨c2, _ | ⟨d, rest⟩⟩⟩⟩⟩ <;>
    simp only [matchSep4] at h
  · exact absurd h (by simp)
  · exact absurd h (by simp)
  · exact absurd h (by simp)
  · exact absurd h (by simp)
  · exact absurd h (by simp)
  · by_cases hcond : (isSep s && a.isDigit && b.isDigit && c2.isDigit && d.isDigit) = true
    · rw [if_pos hcond] at h
      have hm := (Option.some.inj h).symm
      simp only [Bool.and_eq_true] at hcond
      refine ⟨s, [a, b, c2, d], hm, hcond.1.1.1.1, rfl, ?_⟩
      simp [hcond.1.1.1.2, hcond.1.1.2, hcond.1.2, hcond.2]
    · rw [if_neg hcond] at h
      exact absurd h (by simp)

theorem matchMonth_shape (cs m : List Char) (h : matchMonth cs = some m) :
    ∃ d2 s y4, m = d2 ++ s :: y4 ∧ 1 ≤ d2.length ∧ d2.length ≤ 2 ∧
      d2.all Char.isDigit = true ∧ isSep s = true ∧ y4.length = 4 ∧
      y4.all Char.isDigit = true := by
  cases cs with
  | nil => exact absurd h (by simp [matchMonth])
  | cons a rest =>
    by_cases ha : a.isDigit = true
    · cases rest with
      | nil =>
        exact absurd h (by simp [matchMonth, ha])
      | cons b rest2 =>
        by_cases hb : b.isDigit = true
        · cases h4 : matchSep4 rest2 with
          | some m1 =>
            have hm : m = a :: b :: m1 := by
              rw [matchMonth.eq_def] at h
              simp only [ha, hb, h4, if_true] at h
              exact (Option.some.inj h).symm
            obtain ⟨s, y4, he, hs, hl, hd⟩ := matchSep4_shape rest2 m1 h4
            refine ⟨[a, b], s, y4, ?_, by simp, by simp, by simp [ha, hb], hs, hl, hd⟩
            rw [hm, he]
            rfl
          | none =>
            cases h5 : matchSep4 (b :: rest2) with
            | some m2 =>
              have hm : m = a :: m2 := by
                rw [matchMonth.eq_def] at h
                simp only [ha, hb, h4, h5, if_true, Option.map_some'] at h
                exact (Option.some.inj h).symm
              obtain ⟨s, y4, he, hs, hl, hd⟩ := matchSep4_shape (b :: rest2) m2 h5
              refine ⟨[a], s, y4, ?_, by simp, by simp, by simp [ha], hs, hl, hd⟩
              rw [hm, he]
              rfl
            | none =>
              rw [matchMonth.eq_def] at h
              simp [ha, hb, h4, h5] at h
        · cases h5 : matchSep4 (b :: rest2) with
          | some m2 =>
            have hm : m = a :: m2 := by
              rw [matchMonth.eq_def] at h
              simp only [ha, hb, h5, if_true, Bool.false_eq_true, if_false,
                Option.map_some'] at h
              exact (Option.some.inj h).symm
            obtain ⟨s, y4, he, hs, hl, hd⟩ := matchSep4_shape (b :: rest2) m2 h5
            refine ⟨[a], s, y4, ?_, by simp, by simp, by simp [ha], hs, hl, hd⟩
            rw [hm, he]
            rfl
          | none =>
            rw [matchMonth.eq_def] at h
            simp [ha, hb, h5] at h
    · rw [matchMonth.eq_def] at h
      simp [ha] at h

theorem matchAfterDay_shape (cs m : List Char) (h : matchAfterDay cs = some m) :
    ∃ s1 d2 s2 y4, m = s1 :: (d2 ++ s2 :: y4) ∧ isSep s1 = true ∧
      1 ≤ d2.length ∧ d2.length ≤ 2 ∧ d2.all Char.isDigit = true ∧
      isSep s2 = true ∧ y4.length = 4 ∧ y4.all Char.isDigit = true := by
  cases cs with
  | nil => exact absurd h (by simp [matchAfterDay])
  | cons s rest =>
    by_cases hs : isSep s = true
    · cases hm1 : matchMonth rest with
      | some m1 =>
        have hm : m = s :: m1 := by
          simp only [matchAfterDay, hs, hm1, if_true, Option.map_some'] at h
          exact (Option.some.inj h).symm
        obtain ⟨d2, s2, y4, he, h1, h2, h3, h4, h5, h6⟩ :=
          matchMonth_shape rest m1 hm1
        exact ⟨s, d2, s2, y4, by rw [hm, he], hs, h1, h2, h3, h4, h5, h6⟩
      | none =>
        simp [matchAfterDay, hs, hm1] at h
    · simp [matchAfterDay, hs] at h

theorem matchFrom_shape (cs m : List Char) (h : matchFrom cs = some m) :
    DateShape m := by
  cases cs with
  | nil => exact absurd h (by simp [matchFrom])
  | cons a rest =>
    by_cases ha : a.isDigit = true
    · cases rest with
      | nil => exact absurd h (by simp [matchFrom, ha])
      | cons b rest2 =>
        by_cases hb : b.isDigit = true
        · cases had : matchAfterDay rest2 with
          | some m1 =>
            have hm : m = a :: b :: m1 := by
              rw [matchFrom.eq_def] at h
              simp only [ha, hb, had, if_true] at h
              exact (Option.some.inj h).symm
            obtain ⟨s1, d2, s2, y4, he, h1, h2, h3, h4, h5, h6, h7⟩ :=
              matchAfterDay_shape rest2 m1 had
            refine ⟨[a, b], s1, d2, s2, y4, ?_, by simp, by simp,
              by simp [ha, hb], h1, h2, h3, h4, h5, h6, h7⟩
            rw [hm, he]
            rfl
          | none =>
            cases had2 : matchAfterDay (b :: rest2) with
            | some m2 =>
              have hm : m = a :: m2 := by
                rw [matchFrom.eq_def] at h
                simp only [ha, hb, had, had2, if_true, Option.map_some'] at h
                exact (Option.some.inj h).symm
              obtain ⟨s1, d2, s2, y4, he, h1, h2, h3, h4, h5, h6, h7⟩ :=
                matchAfterDay_shape (b :: rest2) m2 had2
              refine ⟨[a], s1, d2, s2, y4, ?_, by simp, by simp,
                by simp [ha], h1, h2, h3, h4, h5, h6, h7⟩
              rw [hm, he]
              rfl
            | none =>
              rw [matchFrom.eq_def] at h
              simp [ha, hb, had, had2] at h
        · cases had2 : matchAfterDay (b :: rest2) with
          | some m2 =>
            have hm : m = a :: m2 := by
              rw [matchFrom.eq_def] at h
              simp only [ha, hb, had2, if_true, Bool.false_eq_true, if_false,
                Option.map_some'] at h
              exact (Option.some.inj h).symm
            obtain ⟨s1, d2, s2, y4, he, h1, h2, h3, h4, h5, h6, h7⟩ :=
              matchAfterDay_shape (b :: rest2) m2 had2
            refine ⟨[a], s1, d2, s2, y4, ?_, by simp, by simp,
              by simp [ha], h1, h2, h3, h4, h5, h6, h7⟩
            rw [hm, he]
            rfl
          | none =>
            rw [matchFrom.eq_def] at h
            simp [ha, hb, had2] at h
    · rw [matchFrom.eq_def] at h
      simp [ha] at h

theorem reSearch_shape (cs m : List Char) (h : reSearch cs = some m) :
    DateShape m := by
  induction cs with
  | nil => exact absurd h (by simp [reSearch])
  | cons c cs ih =>
    simp only [reSearch] at h
    cases hmf : matchFrom (c :: cs) with
    | some m1 =>
      rw [hmf] at h
      exact (Option.some.inj h) ▸ matchFrom_shape _ m1 hmf
    | none =>
      rw [hmf] at h
      exact ih h

/-- C5, counterexample: a fragment whose only date-like substring mixes the
two separators still sets `approval_date`.  The regex matches the separators
with two independent character classes, so "12-05/2024" is accepted. -/
theorem c5_date_pattern_counterexample :
    (extractDates ["approved 12-05/2024".data]).approval = "12-05/2024".data ∧
    "12-05/2024".data ≠ ([] : List Char) := by
  constructor <;> decide

/-- C5 (amended): a fragment changes the stored dates only when the date
regex finds a match in it, and every match has the form 1–2 digits, a
separator `-` or `/`, 1–2 digits, a separator `-` or `/`, 4 digits — the
two separators chosen independently, so mixed-separator dates are accepted
too. -/
theorem c5_date_pattern_amended :
    (∀ (st : Dates) (frag : List Char), stepDates st frag ≠ st →
      ∃ m, reSearch frag = some m ∧ DateShape m) ∧
    (∀ (st : Dates) (frag : List Char), reSearch frag = none →
      stepDates st frag = st) := by
  have hnone : ∀ (st : Dates) (frag : List Char), reSearch frag = none →
      stepDates st frag = st := by
    intro st frag h
    unfold stepDates
    by_cases hk : apKeyword frag = true <;>
      by_cases hv : rvKeyword frag = true <;>
        simp [hk, hv, h]
  refine ⟨?_, hnone⟩
  intro st frag hne
  cases hr : reSearch frag with
  | none => exact absurd (hnone st frag hr) hne
  | some m => exact ⟨m, rfl, reSearch_shape frag m hr⟩

/-- Witness for C5 (amended): a mixed-separator fragment changes the state
and its match has the date shape; a digit-free fragment leaves it intact. -/
theorem c5_date_pattern_amended_witness :
    (stepDates { approval := [], review := [] } ("approved 12-05/2024".data)
      ≠ { approval := [], review := [] }) ∧
    (∃ m, reSearch ("approved 12-05/2024".data) = some m ∧ DateShape m) ∧
    reSearch ("plain words only".data) = none ∧
    stepDates { approval := "a".data, review := "b".data }
        ("plain words only".data)
      = { approval := "a".data, review := "b".data } :=
  ⟨by decide,
    c5_date_pattern_amended.1 { approval := [], review := [] }
      ("approved 12-05/2024".data) (by decide),
    by decide,
    c5_date_pattern_amended.2 { approval := "a".data, review := "b".data }
      ("plain words only".data) (by decide)⟩

/-- C7, counterexample: a configured maximum of 0 does not truncate at all.
`if max_policies:` is false for 0 in Python, so the single link is still
processed and the reported total is 1, not min 0 1 = 0. -/
theorem c7_truncation_counterexample :
    (scrape_all_policies ["u"] (some 0) (fun _ => true)).total
        ≠ min 0 (["u"] : List String).length ∧
    processed_links ["u"] (some 0) ≠ (["u"] : List String).take 0 := by
  constructor <;> decide

/-- C7 (amended): for every *positive* configured maximum N the driver
processes exactly the first min(N, length of links) links in discovery order,
the reported total equals that count, and at most N documents are attempted.
(For N = 0 the guard is falsy and no truncation happens — see the
counterexample.) -/
theorem c7_truncation_amended (links : List String) (n : Nat)
    (f : String → Bool) (h : 0 < n) :
    processed_links links (some n) = links.take n ∧
    (scrape_all_policies links (some n) f).total = min n links.length ∧
    (scrape_all_policies links (some n) f).total ≤ n := by
  have hn : ¬ n = 0 := by omega
  have hpl : processed_links links (some n) = links.take n := by
    simp [processed_links, hn]
  have htot : (scrape_all_policies links (some n) f).total = min n links.length := by
    by_cases he : links.isEmpty = true
    · have hz : links = [] := by simpa using he
      subst hz
      simp [scrape_all_policies]
    · simp only [scrape_all_policies, he, Bool.false_eq_true, if_false]
      rw [hpl, List.length_take]
  exact ⟨hpl, htot, by rw [htot]; exact Nat.min_le_left _ _⟩

/-- Witness for C7 (amended) at N = 1 over a two-link list. -/
theorem c7_truncation_amended_witness :
    0 < 1 ∧
    (processed_links ["u", "v"] (some 1) = (["u", "v"] : List String).take 1 ∧
     (scrape_all_policies ["u", "v"] (some 1) (fun _ => false)).total
        = min 1 (["u", "v"] : List String).length ∧
     (scrape_all_policies ["u", "v"] (some 1) (fun _ => false)).total ≤ 1) :=
  ⟨Nat.zero_lt_one,
    c7_truncation_amended ["u", "v"] 1 (fun _ => false) Nat.zero_lt_one⟩

/-- Each loop iteration of the driver increments exactly one counter, so the
counter pair sums to the number of processed links. -/
theorem foldl_counts_sum (g : String → Bool) :
    ∀ (ls : List String) (p : Nat × Nat),
      (ls.foldl (fun pr link =>
        if g link then (pr.1 + 1, pr.2) else (pr.1, pr.2 + 1)) p).1 +
      (ls.foldl (fun pr link =>
        if g link then (pr.1 + 1, pr.2) else (pr.1, pr.2 + 1)) p).2
        = p.1 + p.2 + ls.length := by
  intro ls
  induction ls with
  | nil => intro p; simp
  | cons l ls ih =>
    intro p
    rw [List.foldl_cons, ih]
    by_cases hg : g l = true <;> simp [hg] <;> omega

/-- C9: whenever link discovery yields at least one link, the summary
satisfies success + failed = total — every processed link lands in exactly
one of the two counters, exceptions included (the outcome oracle covers the
exception branch). -/
theorem c9_counters_sum (links : List String) (maxPolicies : Option Nat)
    (f : String → Bool) (h : links ≠ []) :
    (scrape_all_policies links maxPolicies f).success +
      (scrape_all_policies links maxPolicies f).failed =
      (scrape_all_policies links maxPolicies f).total := by
  have he : links.isEmpty = false := by simpa using h
  simp only [scrape_all_policies, he, Bool.false_eq_true, if_false]
  simpa using foldl_counts_sum f (processed_links links maxPolicies) (0, 0)

/-- Witness for C9: two links, one success and one failure. -/
theorem c9_counters_sum_witness :
    (["a", "b"] : List String) ≠ [] ∧
    (scrape_all_policies ["a", "b"] none (fun s => s == "a")).success +
      (scrape_all_policies ["a", "b"] none (fun s => s == "a")).failed =
      (scrape_all_policies ["a", "b"] none (fun s => s == "a")).total :=
  ⟨by decide,
    c9_counters_sum ["a", "b"] none (fun s => s == "a") (by decide)⟩

/-!  ## Helper lemmas about filename derivation  -/

theorem mem_collapseDashAux {c : Char} :
    ∀ (l : List Char) (b : Bool), c ∈ collapseDashAux b l →
      c = '_' ∨ (c ∈ l ∧ (isPySpace c || c = '-') = false) := by
  intro l
  induction l with
  | nil => intro b h; simp [collapseDashAux] at h
  | cons a as ih =>
    intro b h
    by_cases ha : (isPySpace a || a = '-') = true
    · have step : c ∈ collapseDashAux true as →
          c = '_' ∨ (c ∈ a :: as ∧ (isPySpace c || c = '-') = false) := by
        intro hx
        rcases ih true hx with h1 | ⟨h2, h3⟩
        · exact Or.inl h1
        · exact Or.inr ⟨List.mem_cons_of_mem _ h2, h3⟩
      cases b with
      | true =>
        have et : collapseDashAux true (a :: as) = collapseDashAux true as := by
          simp [collapseDashAux, ha]
        exact step (et ▸ h)
      | false =>
        have ef : collapseDashAux false (a :: as)
            = '_' :: collapseDashAux true as := by
          simp [collapseDashAux, ha]
        rw [ef, List.mem_cons] at h
        cases h with
        | inl h1 => exact Or.inl h1
        | inr h2 => exact step h2
    · rw [Bool.not_eq_true] at ha
      have eb : collapseDashAux b (a :: as) = a :: collapseDashAux false as := by
        cases b <;> simp [collapseDashAux, ha]
      rw [eb, List.mem_cons] at h
      cases h with
      | inl h1 => exact Or.inr ⟨by rw [h1]; exact List.mem_cons_self _ _, h1 ▸ ha⟩
      | inr h2 =>
        rcases ih false h2 with h1 | ⟨h3, h4⟩
        · exact Or.inl h1
        · exact Or.inr ⟨List.mem_cons_of_mem _ h3, h4⟩

/-- C8: the Storage collaborator derives exactly
"Staff_Travel_Expenses_Policy.json" from the example title, and in general
the derivation appends ".json" to a base of at most 80 characters consisting
only of word characters (specials stripped, space/hyphen runs collapsed to a
single underscore). -/
theorem c8_filename_derivation :
    policy_filename ("Staff Travel & Expenses: Policy!".data)
      = "Staff_Travel_Expenses_Policy.json".data ∧
    ∀ t : List Char, ∃ base : List Char,
      policy_filename t = base ++ ".json".data ∧ base.length ≤ 80 ∧
      ∀ c ∈ base, isPyWord c = true := by
  constructor
  · decide
  · intro t
    refine ⟨(collapseDashAux false (stripSpecial t)).take 80, rfl, ?_, ?_⟩
    · rw [List.length_take]
      exact Nat.min_le_left _ _
    · intro c hc
      have hc' : c ∈ collapseDashAux false (stripSpecial t) :=
        List.take_subset _ _ hc
      rcases mem_collapseDashAux _ _ hc' with h1 | ⟨h2, h3⟩
      · rw [h1]; decide
      · have hmem := (List.mem_filter.mp h2).2
        simp only [Bool.or_eq_true] at hmem
        simp only [Bool.or_eq_false_iff] at h3
        rcases hmem with (hw | hs) | hd
        · exact hw
        · exact absurd hs (by rw [h3.1]; simp)
        · exact absurd hd (by rw [h3.2]; simp)

/-- C10, counterexample: a title with no word characters need not give the
bare ".json".  A hyphen-only title survives the first substitution and the
hyphen run becomes an underscore, so the filename is "_.json". -/
theorem c10_filename_counterexample :
    policy_filename ("-".data) = "_.json".data ∧
    policy_filename ("-".data) ≠ ".json".data := by
  constructor <;> decide

/-- C10 (amended): the derivation is total and can produce an empty base —
the filename is exactly ".json" whenever the title has no word, whitespace,
or hyphen characters at all (e.g. empty or made of other punctuation only);
titles made of just hyphens or spaces give base "_" instead. -/
theorem c10_empty_base_amended (t : List Char)
    (h : ∀ c ∈ t, (isPyWord c || isPySpace c || c = '-') = false) :
    policy_filename t = ".json".data := by
  have hstrip : stripSpecial t = [] := by
    unfold stripSpecial
    rw [List.filter_eq_nil_iff]
    intro a ha
    simp [h a ha]
  unfold policy_filename
  rw [hstrip]
  rfl

/-- Witness for C10 (amended) at a punctuation-only title. -/
theorem c10_empty_base_amended_witness :
    (∀ c ∈ ("!?!".data), (isPyWord c || isPySpace c || c = '-') = false) ∧
    policy_filename ("!?!".data) = ".json".data :=
  ⟨by decide, c10_empty_base_amended ("!?!".data) (by decide)⟩
